import Mathlib

/-!
Verification of the `memoize` library: the memoization wrapper, the default
argument serializers (the two variants shipped in `memoize.ts` and the older
single-file variant), and the bounded LRU cache.

JavaScript data is modelled shallowly: values relevant to key serialization
become the inductive `JSVal`; a JS `Map` becomes an insertion-ordered
association list; reference identity becomes a numeric id; the mutable
closure state of a serializer becomes an explicit state record threaded
through each call.
-/

namespace Memoize

/-- A JavaScript value as seen by the argument serializers: the primitive
types that are rendered by value, reference-identity values (objects,
arrays, functions, unregistered symbols — all of which are valid weak-map
keys), and registered symbols (`Symbol.for(...)`), which cannot be held
weakly.  A registered symbol is identified by its description, which is
exactly its global-registry key. -/
inductive JSVal where
  | str (s : String)
  | num (n : Int)
  | bool (b : Bool)
  | null
  | undefined
  | bigint (n : Int)
  | ref (id : Nat)
  | symReg (desc : String)
deriving DecidableEq, Repr

/-- Whether a value is rendered by value by the serializers (string,
number, boolean, `null`, `undefined`, bigint), as opposed to the
reference/symbol paths. -/
def JSVal.isPrim : JSVal → Bool
  | .str _ | .num _ | .bool _ | .null | .undefined | .bigint _ => Bool.true
  | .ref _ | .symReg _ => Bool.false

/-! ### JS `Map` on an association list

A JS `Map` keeps insertion order; `set` of an existing key updates the value
in place, `set` of a new key appends, `delete` removes the (unique) entry. -/

variable {κ : Type} [DecidableEq κ] {β : Type} {V : Type} {E : Type}

/-- `Map.prototype.get` / lookup of the first entry with the given key. -/
def mget : List (κ × β) → κ → Option β
  | [], _ => none
  | (k', v) :: rest, k => if k' = k then some v else mget rest k

/-- `Map.prototype.set`: update in place if the key is present, else append. -/
def mset : List (κ × β) → κ → β → List (κ × β)
  | [], k, v => [(k, v)]
  | (k', v') :: rest, k, v =>
      if k' = k then (k, v) :: rest else (k', v') :: mset rest k v

/-- `Map.prototype.delete`: remove the first entry with the given key
(a no-op when the key is absent). -/
def mdel : List (κ × β) → κ → List (κ × β)
  | [], _ => []
  | (k', v') :: rest, k => if k' = k then rest else (k', v') :: mdel rest k

/-! ### Decimal rendering

JS string interpolation of a non-negative integer (the serializers only
interpolate the counter `i` and bigints/numbers) produces its decimal
digits.  We render decimals directly on character lists and prove the
rendering injective, which is what the generated `\x7bn\x7d` reference
tokens rely on. -/

/-- The decimal digit character for `n % 10`. -/
def decDigit (n : Nat) : Char :=
  match n with
  | 0 => '0' | 1 => '1' | 2 => '2' | 3 => '3' | 4 => '4'
  | 5 => '5' | 6 => '6' | 7 => '7' | 8 => '8' | _ => '9'

/-- Decimal digits with explicit fuel (structural recursion, so that
concrete keys evaluate inside the kernel); with fuel at least `n` the fuel
never runs out. -/
def natDecCharsAux : Nat → Nat → List Char
  | 0, n => [decDigit n]
  | fuel + 1, n =>
      if n < 10 then [decDigit n]
      else natDecCharsAux fuel (n / 10) ++ [decDigit (n % 10)]

/-- Decimal digits of a natural number, most significant first. -/
def natDecChars (n : Nat) : List Char := natDecCharsAux n n

/-- Decimal rendering of a natural number as a JS template literal writes it. -/
def natDec (n : Nat) : String := ⟨natDecChars n⟩

/-- Rendering of a JS number or bigint value (integral case) in decimal,
with a leading minus sign when negative. -/
def intDec (n : Int) : String :=
  match n with
  | .ofNat m => natDec m
  | .negSucc m => ⟨'-' :: natDecChars (m + 1)⟩

/-! ### JSON string escaping

`JSON.stringify` of a string wraps it in double quotes, escaping the quote,
the backslash, the named control characters, and other control characters
as `\u00XX`. -/

/-- A hexadecimal digit character (lowercase, as `JSON.stringify` emits). -/
def hexDigit (n : Nat) : Char :=
  match n with
  | 0 => '0' | 1 => '1' | 2 => '2' | 3 => '3' | 4 => '4'
  | 5 => '5' | 6 => '6' | 7 => '7' | 8 => '8' | 9 => '9'
  | 10 => 'a' | 11 => 'b' | 12 => 'c' | 13 => 'd' | 14 => 'e' | _ => 'f'

/-- The `JSON.stringify` escape for a single character. -/
def jsonEscapeChar (c : Char) : List Char :=
  if c = '"' then ['\\', '"']
  else if c = '\\' then ['\\', '\\']
  else if c = '\n' then ['\\', 'n']
  else if c = '\r' then ['\\', 'r']
  else if c = '\t' then ['\\', 't']
  else if c = '\x08' then ['\\', 'b']
  else if c = '\x0c' then ['\\', 'f']
  else if c.toNat < 0x20 then
    ['\\', 'u', '0', '0', hexDigit (c.toNat / 16), hexDigit (c.toNat % 16)]
  else [c]

/-- `JSON.stringify` applied to a string value. -/
def jsonStringify (s : String) : String :=
  ⟨'"' :: (s.data.flatMap jsonEscapeChar ++ ['"'])⟩

/-! ### Reference key segments -/

/-- The reference token `` `{${i++}}` `` generated by both serializers in
`memoize.ts`: the decimal counter value between braces. -/
def mkSeg (n : Nat) : String := ⟨'\x7b' :: (natDecChars n ++ ['\x7d'])⟩

/-- The reference token `` `\x01{${i++}}\x02` `` generated by
`nextReferenceKeySegment` in the older single-file variant. -/
def mkSegP (n : Nat) : String := ⟨'\x01' :: '\x7b' :: (natDecChars n ++ ['\x7d', '\x02'])⟩

/-! ### The `memoize.ts` serializers

`_serializeArgList(cache)` closes over a `WeakMap` from reference values to
key segments (`weakKeyToKeySegmentCache`), a `Map` from key segments to the
composite keys built from them (`weakKeySegmentToKeyCache`), and a counter
`i`.  Both documents of `memoize.ts` share this closure state shape; they
differ only in how an argument that is not weakly trackable is handled. -/

/-- The closure state of `_serializeArgList` in `memoize.ts` (both
documents): the weak map keyed by reference identity, the
segment-to-composite-keys index, and the token counter. -/
structure SerState where
  weakKeyToKeySegmentCache : List (Nat × String)
  weakKeySegmentToKeyCache : List (String × List String)
  i : Nat
deriving DecidableEq, Repr

/-- The state a fresh `_serializeArgList` closure starts from. -/
def SerState.init : SerState := ⟨[], [], 0⟩

/-- Well-formedness of a weak map together with the token counter, holding
whenever they were built by the serializer: each entry carries a token
minted at some earlier counter value, and distinct reference ids carry
distinct tokens. -/
def WFweak (m : List (Nat × String)) (i : Nat) : Prop :=
  (∀ p ∈ m, ∃ j, j < i ∧ p.2 = mkSeg j) ∧
  (∀ p ∈ m, ∀ q ∈ m, p.2 = q.2 → p.1 = q.1)

/-- Well-formedness of a serializer state: its weak map is well formed for
its counter. -/
def SerState.WF (st : SerState) : Prop :=
  WFweak st.weakKeyToKeySegmentCache st.i

/-- The weak-path of both `memoize.ts` serializers for a reference value:
look the value up in the weak map; if absent, mint the token `` `{${i++}}` ``,
register the value with the finalization registry under that token, and
store the mapping.  Returns the segment, the updated state, and the
`weakKeySegments` entries this argument pushes — note the source pushes the
token twice for a fresh value (once inside the `if`, once after it). -/
def refSegment (st : SerState) (id : Nat) : String × SerState × List String :=
  match mget st.weakKeyToKeySegmentCache id with
  | some seg => (seg, st, [seg])
  | none =>
      let seg := mkSeg st.i
      (seg,
       { st with
          weakKeyToKeySegmentCache := mset st.weakKeyToKeySegmentCache id seg,
          i := st.i + 1 },
       [seg, seg])

/-- One argument of the first-document `memoize.ts` serializer
(`_serializeArgList`, the callback body at lines 100–121): primitives are
rendered by value, `undefined` and bigints specially, and everything else
goes to the weak path.  A registered symbol reaches
`registry.register(arg, keySegment)`, which throws a `TypeError` for a
value that cannot be held weakly; the thrown error is the `.error` case. -/
def serializeArgA (st : SerState) (v : JSVal) :
    Except Unit (String × SerState × List String) :=
  match v with
  | .str s => .ok (jsonStringify s, st, [])
  | .num n => .ok (intDec n, st, [])
  | .bool b => .ok (cond b "true" "false", st, [])
  | .null => .ok ("null", st, [])
  | .undefined => .ok ("undefined", st, [])
  | .bigint n => .ok (intDec n ++ "n", st, [])
  | .ref id => .ok (refSegment st id)
  | .symReg _ => .error ()

/-- The `[this, ...args].map(...)` pass of the first-document serializer:
segments in order, the final state, and the accumulated `weakKeySegments`. -/
def serializeListA (st : SerState) :
    List JSVal → Except Unit (List String × SerState × List String)
  | [] => .ok ([], st, [])
  | v :: rest =>
      match serializeArgA st v with
      | .error e => .error e
      | .ok (seg, st1, ws1) =>
          match serializeListA st1 rest with
          | .error e => .error e
          | .ok (segs, st2, ws2) => .ok (seg :: segs, st2, ws1 ++ ws2)

/-- Appending a freshly built composite key to one weak segment's entry of
the segment-to-keys index (the `for (const keySegment of weakKeySegments)`
loop body). -/
def pushKey (st : SerState) (key seg : String) : SerState :=
  { st with
      weakKeySegmentToKeyCache :=
        mset st.weakKeySegmentToKeyCache seg
          ((mget st.weakKeySegmentToKeyCache seg).getD [] ++ [key]) }

/-- The full key derivation of the first-document `memoize.ts` serializer:
serialize `this` and the arguments, join the segments with `","`, then
append the composite key to the index entry of every weak segment used. -/
def getKeyA (st : SerState) (thisv : JSVal) (args : List JSVal) :
    Except Unit (String × SerState) :=
  match serializeListA st (thisv :: args) with
  | .error e => .error e
  | .ok (segs, st1, ws) =>
      let key := String.intercalate "," segs
      .ok (key, ws.foldl (fun s seg => pushKey s key seg) st1)

/-- The finalization-registry callback of `memoize.ts` (lines 91–96 of the
first document and likewise in the second): once a tracked value has been
reclaimed, delete from the backing cache every composite key recorded in
the index for that value's segment, then delete the segment's index entry. -/
def cleanupA (cache : List (String × V)) (st : SerState) (keySegment : String) :
    List (String × V) × SerState :=
  (((mget st.weakKeySegmentToKeyCache keySegment).getD []).foldl
      (fun c k => mdel c k) cache,
   { st with
      weakKeySegmentToKeyCache := mdel st.weakKeySegmentToKeyCache keySegment })

/-- One argument of the second-document `memoize.ts` serializer (lines
252–288): `undefined` and bigints first, then `JSON.stringify` for the
remaining non-symbol non-object primitives, then `assertWeakKey`; a
registered symbol fails that assertion and is rendered as the literal
`` `Symbol.for(${JSON.stringify(arg.description)})` ``.  (The `throw e`
branch after the symbol test is unreachable: every other value that
reaches it is a valid `WeakRef` target.) -/
def serializeArgB (st : SerState) (v : JSVal) : String × SerState × List String :=
  match v with
  | .undefined => ("undefined", st, [])
  | .bigint n => (intDec n ++ "n", st, [])
  | .str s => (jsonStringify s, st, [])
  | .num n => (intDec n, st, [])
  | .bool b => (cond b "true" "false", st, [])
  | .null => ("null", st, [])
  | .symReg d => ("Symbol.for(" ++ jsonStringify d ++ ")", st, [])
  | .ref id => refSegment st id

/-- The `[this, ...args].map(...)` pass of the second-document serializer. -/
def serializeListB (st : SerState) : List JSVal → List String × SerState × List String
  | [] => ([], st, [])
  | v :: rest =>
      let (seg, st1, ws1) := serializeArgB st v
      let (segs, st2, ws2) := serializeListB st1 rest
      (seg :: segs, st2, ws1 ++ ws2)

/-- The full key derivation of the second-document `memoize.ts` serializer. -/
def getKeyB (st : SerState) (thisv : JSVal) (args : List JSVal) : String × SerState :=
  let (segs, st1, ws) := serializeListB st (thisv :: args)
  let key := String.intercalate "," segs
  (key, ws.foldl (fun s seg => pushKey s key seg) st1)

/-! ### The older single-file serializer (`part_003`)

Its closure state adds a strongly held `Map` (`strongKeySegmentCache`) for
values that fail `assertWeakKey`, and its segment-to-keys index
(`keySegmentToKeyCache`) records every segment of a composite key,
primitives included. -/

/-- The closure state of `_serializeArgList` in the single-file variant. -/
structure SerStateP where
  weakKeySegmentCache : List (Nat × String)
  strongKeySegmentCache : List (String × String)
  keySegmentToKeyCache : List (String × List String)
  i : Nat
deriving DecidableEq, Repr

/-- The state a fresh single-file serializer closure starts from. -/
def SerStateP.init : SerStateP := ⟨[], [], [], 0⟩

/-- One argument of the single-file serializer: primitives by value;
weakly trackable references through `weakKeySegmentCache` (registering the
finalization callback); a registered symbol fails `assertWeakKey` and falls
back to the strongly held `strongKeySegmentCache`.  Both reference paths
mint tokens with the shared counter via `nextReferenceKeySegment`. -/
def serializeArgP (st : SerStateP) (v : JSVal) : String × SerStateP :=
  match v with
  | .str s => (jsonStringify s, st)
  | .num n => (intDec n, st)
  | .bool b => (cond b "true" "false", st)
  | .null => ("null", st)
  | .undefined => ("undefined", st)
  | .bigint n => (intDec n ++ "n", st)
  | .ref id =>
      match mget st.weakKeySegmentCache id with
      | some seg => (seg, st)
      | none =>
          let seg := mkSegP st.i
          (seg,
           { st with
              weakKeySegmentCache := mset st.weakKeySegmentCache id seg,
              i := st.i + 1 })
  | .symReg d =>
      match mget st.strongKeySegmentCache d with
      | some seg => (seg, st)
      | none =>
          let seg := mkSegP st.i
          (seg,
           { st with
              strongKeySegmentCache := mset st.strongKeySegmentCache d seg,
              i := st.i + 1 })

/-- The `[this, ...args].map(...)` pass of the single-file serializer. -/
def serializeListP (st : SerStateP) : List JSVal → List String × SerStateP
  | [] => ([], st)
  | v :: rest =>
      let (seg, st1) := serializeArgP st v
      let (segs, st2) := serializeListP st1 rest
      (seg :: segs, st2)

/-- The full key derivation of the single-file serializer: join all
segments with `","`, then append the composite key to the index entry of
every segment (primitive segments included, unlike `memoize.ts`). -/
def getKeyP (st : SerStateP) (thisv : JSVal) (args : List JSVal) : String × SerStateP :=
  let (segs, st1) := serializeListP st (thisv :: args)
  let key := String.intercalate "," segs
  (key,
   segs.foldl
     (fun s seg =>
       { s with
          keySegmentToKeyCache :=
            mset s.keySegmentToKeyCache seg
              ((mget s.keySegmentToKeyCache seg).getD [] ++ [key]) })
     st1)

/-- The finalization-registry callback of the single-file variant
(`part_003` lines 32–38): it deletes from the backing cache every composite
key recorded for the reclaimed segment, but — unlike `memoize.ts` — it does
not remove the segment's entry from `keySegmentToKeyCache`, so the
serializer state is returned unchanged. -/
def cleanupP (cache : List (String × V)) (st : SerStateP) (keySegment : String) :
    List (String × V) × SerStateP :=
  (((mget st.keySegmentToKeyCache keySegment).getD []).foldl
      (fun c k => mdel c k) cache,
   st)

/-! ### The LRU cache

`LruCache extends Map`: the inherited map is the insertion-ordered entry
list; `#setMostRecentlyUsed` is `super.delete` followed by `super.set`,
`#pruneToMaxSize` deletes the first key when the size exceeds `maxSize`,
and `delete` is the inherited `Map.prototype.delete`. -/

/-- The `LruCache` state: the configured `maxSize` plus the inherited
insertion-ordered map entries (least recently touched first). -/
structure LruCache (κ ν : Type) where
  maxSize : Nat
  entries : List (κ × ν)
deriving DecidableEq, Repr

namespace LruCache

variable {ν : Type}

/-- `#setMostRecentlyUsed`: `super.delete(key); super.set(key, value)` —
delete then re-add so the entry becomes last. -/
def setMostRecentlyUsed (c : LruCache κ ν) (k : κ) (v : ν) : LruCache κ ν :=
  { c with entries := mset (mdel c.entries k) k v }

/-- `#pruneToMaxSize`: if the size exceeds `maxSize`, delete the entry of
the first key (`this.keys().next().value`). -/
def pruneToMaxSize (c : LruCache κ ν) : LruCache κ ν :=
  if c.entries.length > c.maxSize then
    match c.entries.head? with
    | some (k, _) => { c with entries := mdel c.entries k }
    | none => c
  else c

/-- `has(key)`: report existence, promoting an existing entry to most
recent; returns the boolean together with the updated cache. -/
def has (c : LruCache κ ν) (k : κ) : Bool × LruCache κ ν :=
  match mget c.entries k with
  | some v => (Bool.true, c.setMostRecentlyUsed k v)
  | none => (Bool.false, c)

/-- `get(key)`: return the stored value (promoting the entry) or
`undefined`. -/
def get (c : LruCache κ ν) (k : κ) : Option ν × LruCache κ ν :=
  match mget c.entries k with
  | some v => (some v, c.setMostRecentlyUsed k v)
  | none => (none, c)

/-- `set(key, value)`: insert as most recent, then prune. -/
def set (c : LruCache κ ν) (k : κ) (v : ν) : LruCache κ ν :=
  (c.setMostRecentlyUsed k v).pruneToMaxSize

/-- `delete(key)`: the inherited `Map.prototype.delete`. -/
def delete (c : LruCache κ ν) (k : κ) : LruCache κ ν :=
  { c with entries := mdel c.entries k }

end LruCache

/-- One operation of the `MemoizationCache` contract, applied to an
`LruCache`. -/
inductive LruOp (κ ν : Type) where
  | hasOp (k : κ)
  | getOp (k : κ)
  | setOp (k : κ) (v : ν)
  | delOp (k : κ)
deriving DecidableEq, Repr

/-- Apply one cache operation, keeping only the resulting cache state. -/
def LruCache.runOp (c : LruCache κ ν) : LruOp κ ν → LruCache κ ν
  | .hasOp k => (c.has k).2
  | .getOp k => (c.get k).2
  | .setOp k v => c.set k v
  | .delOp k => c.delete k

/-- Run a sequence of cache operations. -/
def LruCache.run (c : LruCache κ ν) : List (LruOp κ ν) → LruCache κ ν
  | [] => c
  | op :: ops => (c.runOp op).run ops

/-! ### The memoization wrapper

`memoize(fn, options)` (lines 56–77 of `memoize.ts`, identically in the
second document and in the single-file variant) builds `memoized`: truncate
the arguments when configured, derive the key, return the cached value on a
hit, otherwise invoke `fn`, store and return the result.  We model the
wrapper separately for a caller-supplied (pure) `getKey` with the default
`Map` cache, for the default serializer, for a synchronously throwing `fn`,
and for a promise-returning `fn`. -/

/-- The mutable state of one memoized function with the default `Map`
cache, instrumented with the number of times `fn` has been invoked. -/
structure MemoState (V : Type) where
  cache : List (String × V)
  fnCalls : Nat
deriving DecidableEq, Repr

/-- One call of `memoized` with a caller-supplied pure `getKey` and the
default `Map` cache: truncate if configured, derive the key, hit or invoke
and store. -/
def memoizedCall (fn : JSVal → List JSVal → V) (getKey : JSVal → List JSVal → String)
    (truncateArgs : Bool) (fnLength : Nat) (thisv : JSVal) (args : List JSVal)
    (s : MemoState V) : V × MemoState V :=
  let args := if truncateArgs then args.take fnLength else args
  let key := getKey thisv args
  match mget s.cache key with
  | some v => (v, s)
  | none =>
      let v := fn thisv args
      (v, ⟨mset s.cache key v, s.fnCalls + 1⟩)

/-- A sequence of calls to one memoized function, each with its own
receiver and argument list. -/
def memoizedRun (fn : JSVal → List JSVal → V) (getKey : JSVal → List JSVal → String)
    (truncateArgs : Bool) (fnLength : Nat) (s : MemoState V) :
    List (JSVal × List JSVal) → MemoState V
  | [] => s
  | (thisv, args) :: rest =>
      memoizedRun fn getKey truncateArgs fnLength
        (memoizedCall fn getKey truncateArgs fnLength thisv args s).2 rest

/-- The state of a memoized function using the default serializer of the
first `memoize.ts` document as `getKey`. -/
structure MemoStateD (V : Type) where
  cache : List (String × V)
  ser : SerState
  fnCalls : Nat
deriving DecidableEq, Repr

/-- One call of `memoized` with the default `getKey = _serializeArgList(cache)`
and the default `Map` cache. -/
def memoizedCallD (fn : JSVal → List JSVal → V) (truncateArgs : Bool)
    (fnLength : Nat) (thisv : JSVal) (args : List JSVal) (s : MemoStateD V) :
    Except Unit (V × MemoStateD V) :=
  let args := if truncateArgs then args.take fnLength else args
  match getKeyA s.ser thisv args with
  | .error e => .error e
  | .ok (key, ser1) =>
      match mget s.cache key with
      | some v => .ok (v, { s with ser := ser1 })
      | none =>
          let v := fn thisv args
          .ok (v, ⟨mset s.cache key v, ser1, s.fnCalls + 1⟩)

/-- One call of `memoized` when `fn` can throw synchronously: on a miss the
exception propagates unchanged and the `cache.set` line is never reached,
so the cache is left as it was (while `fn` was still invoked). -/
def memoizedCallThrow (fn : JSVal → List JSVal → Except E V)
    (getKey : JSVal → List JSVal → String) (truncateArgs : Bool) (fnLength : Nat)
    (thisv : JSVal) (args : List JSVal) (s : MemoState V) :
    Except E V × MemoState V :=
  let args := if truncateArgs then args.take fnLength else args
  let key := getKey thisv args
  match mget s.cache key with
  | some v => (.ok v, s)
  | none =>
      match fn thisv args with
      | .error e => (.error e, ⟨s.cache, s.fnCalls + 1⟩)
      | .ok v => (.ok v, ⟨mset s.cache key v, s.fnCalls + 1⟩)

/-! ### The asynchronous path

When `fn` returns a promise, `memoized` stores
`val.catch((reason) => { cache.delete(key); throw reason })` under the key
immediately.  Promises are modelled by numeric ids: a call on a miss mints
the inner promise `p` (the result of `fn.apply`) and the outer promise
`p + 1` (the result of `.catch`), records the catch registration
`p ↦ (key, p + 1)`, and caches the outer promise.  Settling the inner
promise later drives the handler. -/

/-- The state of one memoized async function: the cache from keys to outer
promise ids, the catch registrations from inner promise id to its key and
outer promise id, the next fresh promise id, and the `fn` invocation
count. -/
structure PromiseState (E : Type) where
  cache : List (String × Nat)
  attached : List (Nat × (String × Nat))
  nextPid : Nat
  fnCalls : Nat
deriving DecidableEq, Repr

/-- One call of the memoized async function for an already-derived key:
on a hit return the cached (outer) promise without invoking `fn`; on a miss
invoke `fn` (fresh inner promise), wrap it with the cache-purging `.catch`
(fresh outer promise), store the outer promise, and return it. -/
def asyncCall (key : String) (s : PromiseState E) : Nat × PromiseState E :=
  match mget s.cache key with
  | some q => (q, s)
  | none =>
      let p := s.nextPid
      let q := s.nextPid + 1
      (q, ⟨mset s.cache key q, mset s.attached p (key, q), s.nextPid + 2,
           s.fnCalls + 1⟩)

/-- The inner promise `p` rejects with `reason`: the registered catch
callback runs `cache.delete(key)` and rethrows, so the outer promise
rejects with the very same reason.  The first component is the observation
delivered to awaiters — the outer promise id and its rejection reason —
produced together with (hence no earlier than) the cache deletion. -/
def rejectInner (p : Nat) (reason : E) (s : PromiseState E) :
    Option (Nat × E) × PromiseState E :=
  match mget s.attached p with
  | some (key, q) => (some (q, reason), { s with cache := mdel s.cache key })
  | none => (none, s)

/-- The inner promise `p` fulfills with a value: the catch callback does
not fire, the cache entry stays, and the outer promise fulfills with the
same value. -/
def fulfillInner (p : Nat) (val : V) (s : PromiseState E) :
    Option (Nat × V) × PromiseState E :=
  match mget s.attached p with
  | some (_, q) => (some (q, val), s)
  | none => (none, s)

/-! ### The memoized `memoize` of the second document

Lines 157–190: `memoize` itself is memoized with an `LruCache` of capacity
100 and a `getKey` that serializes the function plus its option values
sorted by option name (via `_getKey = _serializeArgList(_cache)`).  The
inner `memoize` mints a fresh wrapped function on every invocation, which
we model with a fresh id. -/

/-- The module state backing the exported memoized `memoize`: the capacity-100
LRU cache of wrapped functions (by reference id), the `_getKey` serializer
state, and a supply of fresh wrapped-function ids. -/
structure MemoMemoState where
  lru : LruCache String Nat
  ser : SerState
  nextWrapped : Nat
deriving DecidableEq, Repr

/-- The initial module state: `new LruCache(100)` and a fresh serializer. -/
def MemoMemoState.init : MemoMemoState := ⟨⟨100, []⟩, SerState.init, 0⟩

/-- The `getKey` of the memoized `memoize`: sort the option entries by
option name (`a > b ? 1 : a < b ? -1 : 0`, a stable sort modelled by
insertion sort), keep the values, and serialize `(fn, ...optionVals)` with
`_getKey` (receiver `undefined`). -/
def memoizeGetKey (ser : SerState) (fnRef : JSVal) (opts : List (String × JSVal)) :
    String × SerState :=
  let optionVals :=
    (List.insertionSort (fun p q : String × JSVal => p.1 ≤ q.1) opts).map Prod.snd
  getKeyB ser .undefined (fnRef :: optionVals)

/-- One call `memoize(fn, options)` through the exported memoized wrapper:
derive the key from the function and its sorted option values, consult the
LRU cache (`has` then `get`, each promoting), and on a miss mint a fresh
wrapped function, store and return it. -/
def memoMemoCall (fnRef : JSVal) (opts : List (String × JSVal)) (s : MemoMemoState) :
    Nat × MemoMemoState :=
  let (key, ser1) := memoizeGetKey s.ser fnRef opts
  let (hit, lru1) := s.lru.has key
  if hit then
    let (v?, lru2) := lru1.get key
    (v?.getD 0, { s with lru := lru2, ser := ser1 })
  else
    let w := s.nextWrapped
    (w, ⟨lru1.set key w, ser1, s.nextWrapped + 1⟩)

/-! ## Lemma library

Basic facts about the map operations, the decimal rendering, and the
generated tokens, used throughout the claim proofs. -/

@[simp] theorem mget_nil (k : κ) : mget ([] : List (κ × β)) k = none := rfl

@[simp] theorem mget_mset_self (m : List (κ × β)) (k : κ) (v : β) :
    mget (mset m k v) k = some v := by
  induction m with
  | nil => simp [mget, mset]
  | cons p rest ih =>
      obtain ⟨k', v'⟩ := p
      by_cases h : k' = k <;> simp [mget, mset, h, ih]

theorem mget_mset_ne (m : List (κ × β)) (k k' : κ) (v : β) (h : k' ≠ k) :
    mget (mset m k v) k' = mget m k' := by
  induction m with
  | nil => simp [mget, mset, Ne.symm h]
  | cons p rest ih =>
      obtain ⟨k₀, v₀⟩ := p
      by_cases h0 : k₀ = k
      · subst h0
        simp [mget, mset, Ne.symm h]
      · simp only [mset, if_neg h0]
        by_cases h1 : k₀ = k' <;> simp [mget, h1, ih]

theorem mset_of_mget_none (m : List (κ × β)) (k : κ) (v : β)
    (h : mget m k = none) : mset m k v = m ++ [(k, v)] := by
  induction m with
  | nil => simp [mset]
  | cons p rest ih =>
      obtain ⟨k', v'⟩ := p
      by_cases h0 : k' = k
      · simp [mget, h0] at h
      · simp only [mget, if_neg h0] at h
        simp [mset, h0, ih h]

theorem mdel_of_mget_none (m : List (κ × β)) (k : κ)
    (h : mget m k = none) : mdel m k = m := by
  induction m with
  | nil => rfl
  | cons p rest ih =>
      obtain ⟨k', v'⟩ := p
      by_cases h0 : k' = k
      · simp [mget, h0] at h
      · simp only [mget, if_neg h0] at h
        simp [mdel, h0, ih h]

theorem mget_mdel_of_mget_none (m : List (κ × β)) (k k' : κ)
    (h : mget m k' = none) : mget (mdel m k) k' = none := by
  induction m with
  | nil => rfl
  | cons p rest ih =>
      obtain ⟨k₀, v₀⟩ := p
      by_cases h0 : k₀ = k'
      · simp [mget, h0] at h
      · simp only [mget, if_neg h0] at h
        by_cases h1 : k₀ = k
        · simpa [mdel, h1] using h
        · simp [mdel, h1, mget, h0, ih h]

theorem mget_append_of_mget_none (m₁ m₂ : List (κ × β)) (k : κ)
    (h : mget m₁ k = none) : mget (m₁ ++ m₂) k = mget m₂ k := by
  induction m₁ with
  | nil => simp
  | cons p rest ih =>
      obtain ⟨k', v'⟩ := p
      by_cases h0 : k' = k
      · simp [mget, h0] at h
      · simp only [mget, if_neg h0] at h
        simp [mget, h0, ih h]

theorem mdel_append_left (m₁ m₂ : List (κ × β)) (k : κ)
    (h : mget m₁ k ≠ none) : mdel (m₁ ++ m₂) k = mdel m₁ k ++ m₂ := by
  induction m₁ with
  | nil => simp [mget] at h
  | cons p rest ih =>
      obtain ⟨k', v'⟩ := p
      by_cases h0 : k' = k
      · simp [mdel, h0]
      · simp only [mget, if_neg h0] at h
        simp [mdel, h0, ih h]

theorem mdel_append_of_mget_none (m₁ m₂ : List (κ × β)) (k : κ)
    (h : mget m₁ k = none) : mdel (m₁ ++ m₂) k = m₁ ++ mdel m₂ k := by
  induction m₁ with
  | nil => simp
  | cons p rest ih =>
      obtain ⟨k', v'⟩ := p
      by_cases h0 : k' = k
      · simp [mget, h0] at h
      · simp only [mget, if_neg h0] at h
        simp [mdel, h0, ih h]

theorem length_mdel_le (m : List (κ × β)) (k : κ) :
    (mdel m k).length ≤ m.length := by
  induction m with
  | nil => simp [mdel]
  | cons p rest ih =>
      obtain ⟨k', v'⟩ := p
      by_cases h0 : k' = k <;> simp [mdel, h0] <;> omega

theorem length_mdel_of_mget_some (m : List (κ × β)) (k : κ) (v : β)
    (h : mget m k = some v) : (mdel m k).length + 1 = m.length := by
  induction m with
  | nil => simp [mget] at h
  | cons p rest ih =>
      obtain ⟨k', v'⟩ := p
      by_cases h0 : k' = k
      · simp [mdel, h0]
      · simp only [mget, if_neg h0] at h
        simp [mdel, h0, ih h]

theorem length_mset_le (m : List (κ × β)) (k : κ) (v : β) :
    (mset m k v).length ≤ m.length + 1 := by
  induction m with
  | nil => simp [mset]
  | cons p rest ih =>
      obtain ⟨k', v'⟩ := p
      by_cases h0 : k' = k <;> simp [mset, h0] <;> omega

theorem natDecCharsAux_congr :
    ∀ f₁ n, n ≤ f₁ → ∀ f₂, n ≤ f₂ → natDecCharsAux f₁ n = natDecCharsAux f₂ n := by
  intro f₁
  induction f₁ with
  | zero =>
      intro n hn f₂ hn2
      interval_cases n
      cases f₂ <;> simp [natDecCharsAux]
  | succ f ih =>
      intro n hn f₂ hn2
      by_cases h10 : n < 10
      · cases f₂ with
        | zero =>
            interval_cases n <;> simp [natDecCharsAux]
        | succ f₂' => simp [natDecCharsAux, h10]
      · cases f₂ with
        | zero => omega
        | succ f₂' =>
            simp only [natDecCharsAux, if_neg h10]
            have hd : n / 10 < n := Nat.div_lt_self (by omega) (by omega)
            rw [ih (n / 10) (by omega) f₂' (by omega)]

theorem decDigit_inj {a b : Nat} (ha : a < 10) (hb : b < 10)
    (h : decDigit a = decDigit b) : a = b := by
  interval_cases a <;> interval_cases b <;> simp_all [decDigit]

theorem natDecChars_eq (n : Nat) : natDecChars n =
    if n < 10 then [decDigit n] else natDecChars (n / 10) ++ [decDigit (n % 10)] := by
  unfold natDecChars
  by_cases h10 : n < 10
  · cases hn : n with
    | zero => simp [natDecCharsAux, h10]
    | succ m => subst hn; simp [natDecCharsAux, h10]
  · have h1 : 1 ≤ n := by omega
    obtain ⟨m, hm⟩ : ∃ m, n = m + 1 := ⟨n - 1, by omega⟩
    subst hm
    simp only [natDecCharsAux, if_neg h10]
    rw [natDecCharsAux_congr m ((m + 1) / 10) (by omega) ((m + 1) / 10) (le_refl _)]

theorem natDecChars_ne_nil (n : Nat) : natDecChars n ≠ [] := by
  rw [natDecChars_eq]
  split <;> simp

theorem natDecChars_inj : ∀ {a b : Nat}, natDecChars a = natDecChars b → a = b := by
  intro a
  induction a using Nat.strong_induction_on with
  | _ a ih =>
    intro b h
    rw [natDecChars_eq a, natDecChars_eq b] at h
    by_cases ha : a < 10 <;> by_cases hb : b < 10
    · simp only [if_pos ha, if_pos hb] at h
      exact decDigit_inj ha hb (by simpa using h)
    · exfalso
      simp only [if_pos ha, if_neg hb] at h
      have hlen := congrArg List.length h
      simp at hlen
      exact natDecChars_ne_nil _ hlen
    · exfalso
      simp only [if_neg ha, if_pos hb] at h
      have hlen := congrArg List.length h
      simp at hlen
      exact natDecChars_ne_nil _ hlen
    · simp only [if_neg ha, if_neg hb] at h
      obtain ⟨h1, h2⟩ := List.append_inj' h rfl
      have hd : a / 10 = b / 10 := ih (a / 10) (Nat.div_lt_self (by omega) (by omega)) h1
      have hm : a % 10 = b % 10 :=
        decDigit_inj (Nat.mod_lt _ (by omega)) (Nat.mod_lt _ (by omega)) (by simpa using h2)
      omega

theorem natDec_inj {a b : Nat} (h : natDec a = natDec b) : a = b :=
  natDecChars_inj (congrArg String.data h)

theorem mkSeg_inj {a b : Nat} (h : mkSeg a = mkSeg b) : a = b := by
  have h' : natDecChars a ++ ['\x7d'] = natDecChars b ++ ['\x7d'] := by
    have := congrArg String.data h
    simpa [mkSeg] using this
  exact natDecChars_inj (by simpa using List.append_inj' h' rfl |>.1)

theorem mget_eq_none_of_not_mem (m : List (κ × β)) (k : κ)
    (h : k ∉ m.map Prod.fst) : mget m k = none := by
  induction m with
  | nil => rfl
  | cons p rest ih =>
      obtain ⟨k', v'⟩ := p
      simp only [List.map_cons, List.mem_cons, not_or] at h
      rw [mget, if_neg (fun hh => h.1 hh.symm)]
      exact ih h.2

theorem mget_cons_self (k : κ) (v : β) (t : List (κ × β)) :
    mget ((k, v) :: t) k = some v := by simp [mget]

theorem mdel_cons_self (k : κ) (v : β) (t : List (κ × β)) :
    mdel ((k, v) :: t) k = t := by simp [mdel]

theorem mget_mdel_self_of_nodup (m : List (κ × β)) (k : κ)
    (h : (m.map Prod.fst).Nodup) : mget (mdel m k) k = none := by
  induction m with
  | nil => rfl
  | cons p rest ih =>
      obtain ⟨k', v'⟩ := p
      simp only [List.map_cons, List.nodup_cons] at h
      by_cases h0 : k' = k
      · subst h0
        simpa [mdel] using mget_eq_none_of_not_mem rest k' h.1
      · simp [mdel, h0, mget, ih h.2]

/-! ### LRU cache lemmas -/

namespace LruCache

variable {ν : Type}

theorem maxSize_setMostRecentlyUsed (c : LruCache κ ν) (k : κ) (v : ν) :
    (c.setMostRecentlyUsed k v).maxSize = c.maxSize := rfl

theorem maxSize_pruneToMaxSize (c : LruCache κ ν) :
    c.pruneToMaxSize.maxSize = c.maxSize := by
  unfold pruneToMaxSize
  split
  · split <;> rfl
  · rfl

theorem maxSize_runOp (c : LruCache κ ν) (op : LruOp κ ν) :
    (c.runOp op).maxSize = c.maxSize := by
  cases op with
  | hasOp k =>
      show (c.has k).2.maxSize = c.maxSize
      unfold has
      cases mget c.entries k <;> rfl
  | getOp k =>
      show (c.get k).2.maxSize = c.maxSize
      unfold get
      cases mget c.entries k <;> rfl
  | setOp k v =>
      show (c.set k v).maxSize = c.maxSize
      unfold set
      rw [maxSize_pruneToMaxSize]
      rfl
  | delOp k => rfl

theorem maxSize_run (c : LruCache κ ν) (ops : List (LruOp κ ν)) :
    (c.run ops).maxSize = c.maxSize := by
  induction ops generalizing c with
  | nil => rfl
  | cons op ops ih =>
      show ((c.runOp op).run ops).maxSize = c.maxSize
      rw [ih, maxSize_runOp]

theorem pruneToMaxSize_entries (c : LruCache κ ν) :
    c.pruneToMaxSize.entries =
      if c.maxSize < c.entries.length then c.entries.tail else c.entries := by
  unfold pruneToMaxSize
  by_cases hgt : c.entries.length > c.maxSize
  · rw [if_pos hgt, if_pos (by omega)]
    rcases hh : c.entries with _ | ⟨⟨k0, v0⟩, t⟩
    · rw [hh] at hgt
      simp at hgt
    · simp only [List.head?_cons, mdel_cons_self, List.tail_cons]
  · rw [if_neg hgt, if_neg (by omega)]

theorem length_pruneToMaxSize_le (c : LruCache κ ν)
    (h : c.entries.length ≤ c.maxSize + 1) :
    c.pruneToMaxSize.entries.length ≤ c.maxSize := by
  rw [pruneToMaxSize_entries]
  split
  · next hgt =>
      rw [List.length_tail]
      omega
  · next hgt => omega

theorem length_setMostRecentlyUsed_le (c : LruCache κ ν) (k : κ) (v : ν) :
    (c.setMostRecentlyUsed k v).entries.length ≤ c.entries.length + 1 := by
  have h1 := length_mset_le (mdel c.entries k) k v
  have h2 := length_mdel_le c.entries k
  simp only [setMostRecentlyUsed]
  omega

theorem length_setMostRecentlyUsed_le_of_mget_some (c : LruCache κ ν) (k : κ)
    (v v' : ν) (h : mget c.entries k = some v) :
    (c.setMostRecentlyUsed k v').entries.length ≤ c.entries.length := by
  have h1 := length_mset_le (mdel c.entries k) k v'
  have h2 := length_mdel_of_mget_some c.entries k v h
  simp only [setMostRecentlyUsed]
  omega

theorem length_runOp_le (c : LruCache κ ν) (op : LruOp κ ν)
    (h : c.entries.length ≤ c.maxSize) :
    (c.runOp op).entries.length ≤ c.maxSize := by
  cases op with
  | hasOp k =>
      show (c.has k).2.entries.length ≤ c.maxSize
      unfold has
      cases hm : mget c.entries k with
      | none => simpa using h
      | some v =>
          simp only
          exact le_trans (length_setMostRecentlyUsed_le_of_mget_some c k v v hm) h
  | getOp k =>
      show (c.get k).2.entries.length ≤ c.maxSize
      unfold get
      cases hm : mget c.entries k with
      | none => simpa using h
      | some v =>
          simp only
          exact le_trans (length_setMostRecentlyUsed_le_of_mget_some c k v v hm) h
  | setOp k v =>
      show (c.set k v).entries.length ≤ c.maxSize
      unfold set
      have h1 : (c.setMostRecentlyUsed k v).entries.length ≤
          (c.setMostRecentlyUsed k v).maxSize + 1 := by
        rw [maxSize_setMostRecentlyUsed]
        have := length_setMostRecentlyUsed_le c k v
        omega
      have h2 := length_pruneToMaxSize_le _ h1
      rwa [maxSize_setMostRecentlyUsed] at h2
  | delOp k =>
      show (c.delete k).entries.length ≤ c.maxSize
      exact le_trans (length_mdel_le c.entries k) h

theorem length_run_le (c : LruCache κ ν) (ops : List (LruOp κ ν))
    (h : c.entries.length ≤ c.maxSize) :
    (c.run ops).entries.length ≤ c.maxSize := by
  induction ops generalizing c with
  | nil => exact h
  | cons op ops ih =>
      show ((c.runOp op).run ops).entries.length ≤ c.maxSize
      have hm := maxSize_runOp c op
      have h1 : (c.runOp op).entries.length ≤ (c.runOp op).maxSize := by
        rw [hm]
        exact length_runOp_le c op h
      have h2 := ih (c.runOp op) h1
      rwa [hm] at h2

end LruCache

/-- C5: for every `LruCache` constructed with `maxSize ≥ 1` and every
sequence of `has`/`get`/`set`/`delete` operations starting from the empty
cache, the number of entries never exceeds `maxSize` — in particular after
any `set` completes. -/
theorem lru_size_never_exceeds_maxSize {κ ν : Type} [DecidableEq κ]
    (maxSize : Nat) (hmax : 1 ≤ maxSize) (ops : List (LruOp κ ν)) :
    ((LruCache.mk maxSize []).run ops).entries.length ≤ maxSize :=
  LruCache.length_run_le _ ops (by simp)

/-- Witness for C5 at `maxSize = 1` and a concrete operation sequence. -/
theorem lru_size_never_exceeds_maxSize_witness :
    ((LruCache.mk 1 ([] : List (Nat × Nat))).run
        [.setOp 1 5, .setOp 2 6, .hasOp 1, .setOp 3 7]).entries.length ≤ 1 :=
  lru_size_never_exceeds_maxSize 1 (by decide) _

/-- C6: `set` of an existing key removes it and re-inserts it as most
recent, `set` of a new key appends it as most recent, and if the size then
exceeds `maxSize` exactly the least-recently-touched (first) entry is
evicted; concretely, with `maxSize = 3` and sets for keys `1,2,1,3,4` in
order, the cache ends holding exactly the keys `1,3,4` (key `2` evicted). -/
theorem lru_set_removes_reinserts_evicts_lru {κ ν : Type} [DecidableEq κ] :
    (∀ (c : LruCache κ ν) (k : κ) (v : ν), (c.entries.map Prod.fst).Nodup →
      (c.set k v).entries =
        if c.maxSize < (mdel c.entries k ++ [(k, v)]).length
        then (mdel c.entries k ++ [(k, v)]).tail
        else mdel c.entries k ++ [(k, v)]) ∧
    ((LruCache.mk 3 ([] : List (Nat × Nat))).run
        [.setOp 1 10, .setOp 2 20, .setOp 1 11, .setOp 3 30, .setOp 4 40]).entries
      = [(1, 11), (3, 30), (4, 40)] := by
  constructor
  · intro c k v hnodup
    have hnone : mget (mdel c.entries k) k = none :=
      mget_mdel_self_of_nodup c.entries k hnodup
    have hmru : (c.setMostRecentlyUsed k v).entries = mdel c.entries k ++ [(k, v)] := by
      simp only [LruCache.setMostRecentlyUsed]
      exact mset_of_mget_none _ k v hnone
    show ((c.setMostRecentlyUsed k v).pruneToMaxSize).entries = _
    rw [LruCache.pruneToMaxSize_entries, LruCache.maxSize_setMostRecentlyUsed, hmru]
  · decide

/-- Witness for C6 at a concrete cache with distinct keys. -/
theorem lru_set_removes_reinserts_evicts_lru_witness :
    ((LruCache.mk 2 [(1, 5), (2, 6)] : LruCache Nat Nat).set 3 7).entries =
      if (2 : Nat) < (mdel [(1, 5), (2, 6)] 3 ++ [(3, 7)]).length
      then (mdel [(1, 5), (2, 6)] 3 ++ [(3, 7)]).tail
      else mdel [(1, 5), (2, 6)] 3 ++ [(3, 7)] :=
  lru_set_removes_reinserts_evicts_lru.1 ⟨2, [(1, 5), (2, 6)]⟩ 3 7 (by decide)

/-! ### The memoization wrapper: hit path and idempotence -/

theorem memoizedRun_all_hits {V : Type} (fn : JSVal → List JSVal → V)
    (getKey : JSVal → List JSVal → String) (tr : Bool) (n : Nat) (k : String)
    (v : V) (calls : List (JSVal × List JSVal)) (s : MemoState V)
    (hk : ∀ c ∈ calls, getKey c.1 (if tr then c.2.take n else c.2) = k)
    (hv : mget s.cache k = some v) :
    memoizedRun fn getKey tr n s calls = s := by
  induction calls with
  | nil => rfl
  | cons c rest ih =>
      obtain ⟨thisv, args⟩ := c
      have hkey : getKey thisv (if tr then args.take n else args) = k :=
        hk _ (List.mem_cons_self _ _)
      have hcall : memoizedCall fn getKey tr n thisv args s = (v, s) := by
        simp [memoizedCall, hkey, hv]
      show memoizedRun fn getKey tr n (memoizedCall fn getKey tr n thisv args s).2 rest = s
      rw [hcall]
      exact ih (fun c hc => hk c (List.mem_cons_of_mem _ hc))

/-- C1: when `cache.has(key)` is true the wrapped function returns
`cache.get(key)` and does not invoke `fn` (its whole state, including the
invocation count, is unchanged); consequently, over any nonempty sequence
of calls whose arguments all derive the same key, started from a state in
which that key is absent, `fn` is invoked exactly once — the backing `Map`
cache never evicts and no call deletes, so the entry persists. -/
theorem memoized_hit_skips_fn_and_invokes_once_per_key {V : Type} :
    (∀ (fn : JSVal → List JSVal → V) (getKey : JSVal → List JSVal → String)
        (tr : Bool) (n : Nat) (thisv : JSVal) (args : List JSVal)
        (s : MemoState V) (v : V),
      mget s.cache (getKey thisv (if tr then args.take n else args)) = some v →
      memoizedCall fn getKey tr n thisv args s = (v, s)) ∧
    (∀ (fn : JSVal → List JSVal → V) (getKey : JSVal → List JSVal → String)
        (tr : Bool) (n : Nat) (k : String) (calls : List (JSVal × List JSVal))
        (s : MemoState V),
      calls ≠ [] →
      (∀ c ∈ calls, getKey c.1 (if tr then c.2.take n else c.2) = k) →
      mget s.cache k = none →
      (memoizedRun fn getKey tr n s calls).fnCalls = s.fnCalls + 1) := by
  constructor
  · intro fn getKey tr n thisv args s v hv
    simp [memoizedCall, hv]
  · intro fn getKey tr n k calls s hne hk hmiss
    obtain ⟨⟨thisv, args⟩, rest, rfl⟩ : ∃ c rest, calls = c :: rest := by
      cases calls with
      | nil => exact absurd rfl hne
      | cons c rest => exact ⟨c, rest, rfl⟩
    have hkey : getKey thisv (if tr then args.take n else args) = k :=
      hk _ (List.mem_cons_self _ _)
    have hcall : memoizedCall fn getKey tr n thisv args s =
        (fn thisv (if tr then args.take n else args),
         ⟨mset s.cache k (fn thisv (if tr then args.take n else args)),
          s.fnCalls + 1⟩) := by
      simp [memoizedCall, hkey, hmiss]
    show (memoizedRun fn getKey tr n
        (memoizedCall fn getKey tr n thisv args s).2 rest).fnCalls = s.fnCalls + 1
    rw [hcall]
    rw [memoizedRun_all_hits fn getKey tr n k _ rest _
      (fun c hc => hk c (List.mem_cons_of_mem _ hc)) (mget_mset_self _ _ _)]

/-- Witness for C1: a hit returns the cached value without an invocation,
and two equal-key calls from an empty cache invoke `fn` exactly once. -/
theorem memoized_hit_skips_fn_and_invokes_once_per_key_witness :
    (memoizedCall (fun _ _ => (0 : Int)) (fun _ _ => "k") Bool.false 0
        .undefined [] ⟨[("k", 5)], 3⟩ = (5, ⟨[("k", 5)], 3⟩)) ∧
    ((memoizedRun (fun _ _ => (0 : Int)) (fun _ _ => "k") Bool.false 0
        ⟨[], 0⟩ [(.undefined, []), (.undefined, [])]).fnCalls = 0 + 1) :=
  ⟨memoized_hit_skips_fn_and_invokes_once_per_key.1 _ _ _ _ _ _ _ 5 (by decide),
   memoized_hit_skips_fn_and_invokes_once_per_key.2 _ _ _ _ "k" _ _
     (by decide) (by decide) (by decide)⟩

/-- C2: failures of the original function propagate verbatim.  On the sync
path a throwing `fn` on a miss leaves the cache exactly as it was (the
`cache.set` line is never reached) while the same error reaches the caller.
On the async path, the catch handler installed on the cached promise
deletes the key and rethrows: the rejection observed on the outer promise
returned to the caller carries the verbatim reason, the cache is already
back to its pre-call content (so the key is absent), and a subsequent call
with the same key invokes `fn` again. -/
theorem memoized_failure_propagates_and_purges {V E : Type} :
    (∀ (fn : JSVal → List JSVal → Except E V) (getKey : JSVal → List JSVal → String)
        (tr : Bool) (n : Nat) (thisv : JSVal) (args : List JSVal)
        (s : MemoState V) (e : E),
      mget s.cache (getKey thisv (if tr then args.take n else args)) = none →
      fn thisv (if tr then args.take n else args) = .error e →
      memoizedCallThrow fn getKey tr n thisv args s = (.error e, ⟨s.cache, s.fnCalls + 1⟩)) ∧
    (∀ (key : String) (s : PromiseState E) (reason : E),
      mget s.cache key = none →
      (asyncCall key s).2.fnCalls = s.fnCalls + 1 ∧
      (rejectInner s.nextPid reason (asyncCall key s).2).1 =
        some ((asyncCall key s).1, reason) ∧
      (rejectInner s.nextPid reason (asyncCall key s).2).2.cache = s.cache ∧
      (asyncCall key (rejectInner s.nextPid reason (asyncCall key s).2).2).2.fnCalls =
        s.fnCalls + 2) := by
  constructor
  · intro fn getKey tr n thisv args s e hmiss herr
    simp [memoizedCallThrow, hmiss, herr]
  · intro key s reason hmiss
    have h1 : asyncCall key s =
        (s.nextPid + 1,
         ⟨mset s.cache key (s.nextPid + 1),
          mset s.attached s.nextPid (key, s.nextPid + 1),
          s.nextPid + 2, s.fnCalls + 1⟩) := by
      simp [asyncCall, hmiss]
    have hdel : mdel (mset s.cache key (s.nextPid + 1)) key = s.cache := by
      rw [mset_of_mget_none _ _ _ hmiss, mdel_append_of_mget_none _ _ _ hmiss]
      simp [mdel]
    have h2 : rejectInner s.nextPid reason (asyncCall key s).2 =
        (some (s.nextPid + 1, reason),
         ⟨s.cache, mset s.attached s.nextPid (key, s.nextPid + 1),
          s.nextPid + 2, s.fnCalls + 1⟩) := by
      rw [h1]
      simp [rejectInner, mget_mset_self, hdel]
    refine ⟨by rw [h1], by rw [h2, h1], by rw [h2], ?_⟩
    rw [h2]
    simp [asyncCall, hmiss]

/-- Witness for C2: a concrete throwing sync call and a concrete rejected
async call. -/
theorem memoized_failure_propagates_and_purges_witness :
    (memoizedCallThrow (fun _ _ => (.error "boom" : Except String Unit))
        (fun _ _ => "k") Bool.false 0 .undefined [] ⟨[], 4⟩ =
      (.error "boom", ⟨[], 4 + 1⟩)) ∧
    ((asyncCall "k" (⟨[], [], 0, 0⟩ : PromiseState String)).2.fnCalls = 0 + 1 ∧
      (rejectInner (0 : Nat) "fail" (asyncCall "k" (⟨[], [], 0, 0⟩ : PromiseState String)).2).1 =
        some ((asyncCall "k" (⟨[], [], 0, 0⟩ : PromiseState String)).1, "fail") ∧
      (rejectInner (0 : Nat) "fail" (asyncCall "k" (⟨[], [], 0, 0⟩ : PromiseState String)).2).2.cache = [] ∧
      (asyncCall "k"
          (rejectInner (0 : Nat) "fail"
            (asyncCall "k" (⟨[], [], 0, 0⟩ : PromiseState String)).2).2).2.fnCalls = 0 + 2) :=
  ⟨(@memoized_failure_propagates_and_purges Unit String).1 _ _ _ _ _ _ _ "boom" (by decide) rfl,
   (@memoized_failure_propagates_and_purges Unit String).2 "k" ⟨[], [], 0, 0⟩ "fail" (by decide)⟩

/-! ### The default serializer on primitives -/

theorem serializeArgA_prim (v : JSVal) (hv : v.isPrim = Bool.true) :
    ∃ seg, ∀ st, serializeArgA st v = .ok (seg, st, []) := by
  cases v with
  | str s => exact ⟨_, fun st => rfl⟩
  | num n => exact ⟨_, fun st => rfl⟩
  | bool b => exact ⟨_, fun st => rfl⟩
  | null => exact ⟨_, fun st => rfl⟩
  | undefined => exact ⟨_, fun st => rfl⟩
  | bigint n => exact ⟨_, fun st => rfl⟩
  | ref id => simp [JSVal.isPrim] at hv
  | symReg d => simp [JSVal.isPrim] at hv

theorem serializeListA_prim (args : List JSVal)
    (h : ∀ v ∈ args, v.isPrim = Bool.true) :
    ∃ segs, ∀ st, serializeListA st args = .ok (segs, st, []) := by
  induction args with
  | nil => exact ⟨[], fun st => rfl⟩
  | cons v rest ih =>
      obtain ⟨seg, hseg⟩ := serializeArgA_prim v (h v (List.mem_cons_self _ _))
      obtain ⟨segs, hsegs⟩ := ih (fun v hv => h v (List.mem_cons_of_mem _ hv))
      refine ⟨seg :: segs, fun st => ?_⟩
      show serializeListA st (v :: rest) = _
      simp [serializeListA, hseg st, hsegs st]

theorem getKeyA_prim (thisv : JSVal) (args : List JSVal)
    (hthis : thisv.isPrim = Bool.true) (h : ∀ v ∈ args, v.isPrim = Bool.true) :
    ∃ k, ∀ st, getKeyA st thisv args = .ok (k, st) := by
  obtain ⟨segs, hsegs⟩ := serializeListA_prim (thisv :: args) (by
    intro v hv
    rcases List.mem_cons.mp hv with h1 | h2
    · exact h1 ▸ hthis
    · exact h v h2)
  exact ⟨String.intercalate "," segs, fun st => by simp [getKeyA, hsegs st]⟩

/-- C8: two calls with element-wise equal primitive argument tuples get the
identical key, whatever serializer states the two calls run in, and the
serializer state is untouched (primitive rendering is pure); moreover a
bigint `n` is rendered as its decimal digits with the `n` type-marker
suffix, so its key always differs from the key of the equal-valued plain
number. -/
theorem serializer_prim_value_equality_and_bigint_marker :
    (∀ (thisv : JSVal) (args : List JSVal), thisv.isPrim = Bool.true →
      (∀ v ∈ args, v.isPrim = Bool.true) →
      ∀ st st', ∃ k, getKeyA st thisv args = .ok (k, st) ∧
        getKeyA st' thisv args = .ok (k, st')) ∧
    (∀ (n : Int) (st : SerState),
      getKeyA st .undefined [.bigint n] = .ok ("undefined," ++ (intDec n ++ "n"), st) ∧
      getKeyA st .undefined [.num n] = .ok ("undefined," ++ intDec n, st) ∧
      "undefined," ++ (intDec n ++ "n") ≠ "undefined," ++ intDec n) := by
  constructor
  · intro thisv args hthis h st st'
    obtain ⟨k, hk⟩ := getKeyA_prim thisv args hthis h
    exact ⟨k, hk st, hk st'⟩
  · intro n st
    refine ⟨?_, ?_, ?_⟩
    · simp [getKeyA, serializeListA, serializeArgA, String.intercalate]
      rfl
    · simp [getKeyA, serializeListA, serializeArgA, String.intercalate]
      rfl
    · intro h
      have hlen := congrArg String.length h
      have h1 : ("n" : String).length = 1 := rfl
      simp only [String.length_append, h1] at hlen
      omega

/-- Witness for C8 on the tuple `("a", 2, true)` and the bigint `5`. -/
theorem serializer_prim_value_equality_and_bigint_marker_witness :
    (∃ k, getKeyA SerState.init .undefined [.str "a", .num 2, .bool Bool.true] =
        .ok (k, SerState.init) ∧
      getKeyA ⟨[(0, "x")], [], 3⟩ .undefined [.str "a", .num 2, .bool Bool.true] =
        .ok (k, ⟨[(0, "x")], [], 3⟩)) ∧
    (getKeyA SerState.init .undefined [.bigint 5] =
        .ok ("undefined," ++ (intDec 5 ++ "n"), SerState.init) ∧
      getKeyA SerState.init .undefined [.num 5] =
        .ok ("undefined," ++ intDec 5, SerState.init) ∧
      "undefined," ++ (intDec 5 ++ "n") ≠ "undefined," ++ intDec 5) :=
  ⟨serializer_prim_value_equality_and_bigint_marker.1 _ _ (by decide) (by decide) _ _,
   serializer_prim_value_equality_and_bigint_marker.2 5 SerState.init⟩

/-- C9: with `truncateArgs` set, the wrapped function slices the argument
list to the declared arity before key derivation and before forwarding, so
a call behaves exactly as the call on the pre-truncated argument list; and
concretely, for a memoized function of declared arity 1, the calls
`fn(1)` and `fn(1, "ignored")` derive the same key and `fn` is invoked
only once (the second call is a hit returning the same state). -/
theorem memoized_truncateArgs_slices_to_arity {V : Type} :
    (∀ (fn : JSVal → List JSVal → V) (n : Nat) (thisv : JSVal)
        (args : List JSVal) (s : MemoStateD V),
      memoizedCallD fn Bool.true n thisv args s =
        memoizedCallD fn Bool.true n thisv (args.take n) s) ∧
    (getKeyA SerState.init .undefined ([JSVal.num 1, JSVal.str "ignored"].take 1) =
        getKeyA SerState.init .undefined [JSVal.num 1]) ∧
    (memoizedCallD (fun _ _ => (7 : Int)) Bool.true 1 .undefined [.num 1]
        ⟨[], SerState.init, 0⟩ =
      .ok (7, ⟨[("undefined,1", 7)], SerState.init, 1⟩)) ∧
    (memoizedCallD (fun _ _ => (7 : Int)) Bool.true 1 .undefined
        [.num 1, .str "ignored"] ⟨[("undefined,1", 7)], SerState.init, 1⟩ =
      .ok (7, ⟨[("undefined,1", 7)], SerState.init, 1⟩)) := by
  refine ⟨?_, rfl, rfl, rfl⟩
  intro fn n thisv args s
  simp [memoizedCallD, List.take_take]


/-! ### Reference segments: stability and injectivity -/

theorem mget_some_mem (m : List (κ × β)) (k : κ) (v : β)
    (h : mget m k = some v) : (k, v) ∈ m := by
  induction m with
  | nil => simp [mget] at h
  | cons p rest ih =>
      obtain ⟨k0, v0⟩ := p
      by_cases h0 : k0 = k
      · subst h0
        rw [mget, if_pos rfl] at h
        simp only [Option.some.injEq] at h
        simp [h]
      · rw [mget, if_neg h0] at h
        exact List.mem_cons_of_mem _ (ih h)

theorem refSegment_mget (st : SerState) (x : Nat) :
    mget (refSegment st x).2.1.weakKeyToKeySegmentCache x = some (refSegment st x).1 := by
  unfold refSegment
  cases hm : mget st.weakKeyToKeySegmentCache x with
  | some seg => simpa using hm
  | none => simp [mget_mset_self]

theorem refSegment_hit (st : SerState) (x : Nat) (seg : String)
    (h : mget st.weakKeyToKeySegmentCache x = some seg) :
    refSegment st x = (seg, st, [seg]) := by
  simp [refSegment, h]

theorem refSegment_WF (st : SerState) (x : Nat)
    (h : WFweak st.weakKeyToKeySegmentCache st.i) :
    WFweak (refSegment st x).2.1.weakKeyToKeySegmentCache (refSegment st x).2.1.i := by
  unfold refSegment
  cases hm : mget st.weakKeyToKeySegmentCache x with
  | some seg => simpa using h
  | none =>
      simp only
      rw [mset_of_mget_none _ _ _ hm]
      constructor
      · intro p hp
        rcases List.mem_append.mp hp with h1 | h2
        · obtain ⟨j, hj, hseg⟩ := h.1 p h1
          exact ⟨j, by omega, hseg⟩
        · simp at h2
          exact ⟨st.i, by omega, by simp [h2]⟩
      · intro p hp q hq hpq
        rcases List.mem_append.mp hp with h1 | h2 <;>
          rcases List.mem_append.mp hq with h3 | h4
        · exact h.2 p h1 q h3 hpq
        · exfalso
          obtain ⟨j, hj, hseg⟩ := h.1 p h1
          simp only [List.mem_singleton] at h4
          subst h4
          simp only at hpq
          rw [hseg] at hpq
          have := mkSeg_inj hpq
          omega
        · exfalso
          obtain ⟨j, hj, hseg⟩ := h.1 q h3
          simp only [List.mem_singleton] at h2
          subst h2
          simp only at hpq
          rw [hseg] at hpq
          have := mkSeg_inj hpq.symm
          omega
        · simp only [List.mem_singleton] at h2 h4
          subst h2
          subst h4
          rfl

theorem refSegment_ne (st : SerState) (x y : Nat)
    (h : WFweak st.weakKeyToKeySegmentCache st.i) (hxy : x ≠ y)
    (hx : mget st.weakKeyToKeySegmentCache x = some ((refSegment st x).1)) :
    (refSegment st y).1 ≠ (refSegment st x).1 := by
  cases hm : mget st.weakKeyToKeySegmentCache y with
  | some segy =>
      rw [refSegment_hit st y segy hm]
      intro hcontra
      have hmemy := mget_some_mem _ _ _ hm
      have hmemx := mget_some_mem _ _ _ hx
      have hpq : (x, (refSegment st x).1).2 = (y, segy).2 := hcontra.symm
      have hxeq : x = y := h.2 _ hmemx _ hmemy hpq
      exact hxy hxeq
  | none =>
      have hry : (refSegment st y).1 = mkSeg st.i := by
        unfold refSegment
        rw [hm]
      rw [hry]
      intro hcontra
      have hmemx := mget_some_mem _ _ _ hx
      obtain ⟨j, hj, hseg⟩ := h.1 _ hmemx
      rw [show ((refSegment st x).1) = mkSeg j from hseg] at hcontra
      have := mkSeg_inj hcontra
      omega

theorem foldl_pushKey_weakMap (key : String) (ws : List String) (st : SerState) :
    ((ws.foldl (fun s seg => pushKey s key seg) st).weakKeyToKeySegmentCache
       = st.weakKeyToKeySegmentCache) ∧
    ((ws.foldl (fun s seg => pushKey s key seg) st).i = st.i) := by
  induction ws generalizing st with
  | nil => exact ⟨rfl, rfl⟩
  | cons w ws ih => exact ⟨(ih (pushKey st key w)).1, (ih (pushKey st key w)).2⟩

theorem getKeyA_single_ref (st : SerState) (x : Nat) :
    ∃ st', getKeyA st .undefined [.ref x] =
        .ok ("undefined," ++ (refSegment st x).1, st') ∧
      st'.weakKeyToKeySegmentCache = (refSegment st x).2.1.weakKeyToKeySegmentCache ∧
      st'.i = (refSegment st x).2.1.i := by
  rcases hr : refSegment st x with ⟨seg, st1, ws⟩
  have hkey : String.intercalate "," ["undefined", seg] = "undefined," ++ seg := rfl
  refine ⟨ws.foldl (fun s w => pushKey s ("undefined," ++ seg) w) st1, ?_, ?_, ?_⟩
  · show getKeyA st .undefined [.ref x] = _
    simp [getKeyA, serializeListA, serializeArgA, hr, hkey]
  · exact (foldl_pushKey_weakMap _ _ _).1
  · exact (foldl_pushKey_weakMap _ _ _).2

theorem refSegment_congr (st st' : SerState) (id : Nat)
    (hm : st'.weakKeyToKeySegmentCache = st.weakKeyToKeySegmentCache)
    (hi : st'.i = st.i) :
    (refSegment st' id).1 = (refSegment st id).1 ∧
    (refSegment st' id).2.1.weakKeyToKeySegmentCache =
      (refSegment st id).2.1.weakKeyToKeySegmentCache ∧
    (refSegment st' id).2.1.i = (refSegment st id).2.1.i := by
  unfold refSegment
  rw [hm, hi]
  cases mget st.weakKeyToKeySegmentCache id <;> simp [hm, hi]

/-- C7: the default serializer assigns distinct keys to distinct
reference-identity values while both are tracked, and repeated calls with
the same reference value always produce the same key: from any well-formed
serializer state, calling `getKey` on `x`, then on `x` again, then on
`y ≠ x`, the two `x` keys coincide and the `y` key differs. -/
theorem serializer_ref_identity_keys (st : SerState) (x y : Nat)
    (hWF : st.WF) (hxy : x ≠ y) :
    ∃ kx st1 st2 ky st3,
      getKeyA st .undefined [.ref x] = .ok (kx, st1) ∧
      getKeyA st1 .undefined [.ref x] = .ok (kx, st2) ∧
      getKeyA st2 .undefined [.ref y] = .ok (ky, st3) ∧
      ky ≠ kx := by
  obtain ⟨st1, hc1, hm1, hi1⟩ := getKeyA_single_ref st x
  obtain ⟨st2, hc2, hm2, hi2⟩ := getKeyA_single_ref st1 x
  obtain ⟨st3, hc3, hm3, hi3⟩ := getKeyA_single_ref st2 y
  have hWFx : WFweak (refSegment st x).2.1.weakKeyToKeySegmentCache
      (refSegment st x).2.1.i := refSegment_WF st x hWF
  have hgetx : mget st1.weakKeyToKeySegmentCache x = some ((refSegment st x).1) := by
    rw [hm1]
    exact refSegment_mget st x
  have hhit1 : refSegment st1 x = ((refSegment st x).1, st1, [(refSegment st x).1]) :=
    refSegment_hit st1 x _ hgetx
  have hseg2 : (refSegment st1 x).1 = (refSegment st x).1 := by rw [hhit1]
  have hm2' : st2.weakKeyToKeySegmentCache = st1.weakKeyToKeySegmentCache := by
    rw [hm2, hhit1]
  have hi2' : st2.i = st1.i := by
    rw [hi2, hhit1]
  have hcong := refSegment_congr st1 st2 y hm2' hi2'
  have hWF1 : WFweak st1.weakKeyToKeySegmentCache st1.i := by
    rw [hm1, hi1]
    exact hWFx
  have hgetx' : mget st1.weakKeyToKeySegmentCache x = some ((refSegment st1 x).1) := by
    rw [hseg2]
    exact hgetx
  have hne : (refSegment st1 y).1 ≠ (refSegment st x).1 := by
    have h0 := refSegment_ne st1 x y hWF1 hxy hgetx'
    rw [hseg2] at h0
    exact h0
  refine ⟨"undefined," ++ (refSegment st x).1, st1, st2,
    "undefined," ++ (refSegment st2 y).1, st3, hc1, by rw [hc2, hseg2], hc3, ?_⟩
  intro hcontra
  have hdata : ∀ a b : String, (a ++ b).data = a.data ++ b.data := by
    intro a b
    cases a
    cases b
    rfl
  have h1 : (refSegment st2 y).1 = (refSegment st x).1 := by
    have hd := congrArg String.data hcontra
    rw [hdata, hdata] at hd
    have h2 := (List.append_inj hd rfl).2
    have h3 := congrArg String.mk h2
    have hmk : ∀ s : String, String.mk s.data = s := fun s => by cases s; rfl
    rw [hmk, hmk] at h3
    exact h3
  rw [hcong.1] at h1
  exact hne h1

/-- Witness for C7 from the initial serializer state with two fresh ids. -/
theorem serializer_ref_identity_keys_witness :
    ∃ kx st1 st2 ky st3,
      getKeyA SerState.init .undefined [.ref 0] = .ok (kx, st1) ∧
      getKeyA st1 .undefined [.ref 0] = .ok (kx, st2) ∧
      getKeyA st2 .undefined [.ref 1] = .ok (ky, st3) ∧
      ky ≠ kx :=
  serializer_ref_identity_keys SerState.init 0 1
    (by simp [SerState.WF, WFweak, SerState.init]) (by decide)


/-! ### Cleanup callback lemmas -/

theorem mdel_sublist (m : List (κ × β)) (k : κ) : (mdel m k).Sublist m := by
  induction m with
  | nil => simp [mdel]
  | cons p rest ih =>
      obtain ⟨k0, v0⟩ := p
      by_cases h0 : k0 = k
      · simp [mdel, h0]
      · simpa [mdel, h0] using ih

theorem nodup_mdel (m : List (κ × β)) (k : κ)
    (h : (m.map Prod.fst).Nodup) : ((mdel m k).map Prod.fst).Nodup :=
  List.Nodup.sublist (List.Sublist.map Prod.fst (mdel_sublist m k)) h

theorem foldl_mdel_pres_none (ks : List κ) (c : List (κ × β)) (k : κ)
    (h : mget c k = none) :
    mget (ks.foldl (fun c' k' => mdel c' k') c) k = none := by
  induction ks generalizing c with
  | nil => exact h
  | cons k0 ks ih => exact ih _ (mget_mdel_of_mget_none _ _ _ h)

theorem foldl_mdel_pres_nodup (ks : List κ) (c : List (κ × β))
    (h : (c.map Prod.fst).Nodup) :
    (((ks.foldl (fun c' k' => mdel c' k') c)).map Prod.fst).Nodup := by
  induction ks generalizing c with
  | nil => exact h
  | cons k0 ks ih => exact ih _ (nodup_mdel _ _ h)

theorem foldl_mdel_all (ks : List κ) (c : List (κ × β))
    (h : (c.map Prod.fst).Nodup) :
    ∀ k ∈ ks, mget (ks.foldl (fun c' k' => mdel c' k') c) k = none := by
  induction ks generalizing c with
  | nil => simp
  | cons k0 ks ih =>
      intro k hk
      rcases List.mem_cons.mp hk with h1 | h2
      · subst h1
        by_cases hmem : k ∈ ks
        · exact ih _ (nodup_mdel _ _ h) k hmem
        · exact foldl_mdel_pres_none ks _ k (mget_mdel_self_of_nodup c k h)
      · exact ih _ (nodup_mdel _ _ h) k h2

/-! ### Weak-map monotonicity and index registration -/

theorem refSegment_mono (st : SerState) (x id : Nat) (sg : String)
    (h : mget st.weakKeyToKeySegmentCache id = some sg) :
    mget (refSegment st x).2.1.weakKeyToKeySegmentCache id = some sg := by
  unfold refSegment
  cases hm : mget st.weakKeyToKeySegmentCache x with
  | some seg => simpa using h
  | none =>
      simp only
      have hne : id ≠ x := by
        intro hcontra
        rw [hcontra] at h
        rw [h] at hm
        exact Option.noConfusion hm
      rw [mget_mset_ne _ _ _ _ hne]
      exact h

theorem serializeArgA_mono (st st1 : SerState) (v : JSVal) (seg : String)
    (ws : List String) (hc : serializeArgA st v = .ok (seg, st1, ws))
    (id : Nat) (sg : String)
    (h : mget st.weakKeyToKeySegmentCache id = some sg) :
    mget st1.weakKeyToKeySegmentCache id = some sg := by
  cases v with
  | ref x =>
      have h2 : (Except.ok (refSegment st x) :
          Except Unit (String × SerState × List String)) = .ok (seg, st1, ws) := hc
      injection h2 with h3
      rw [show st1 = (refSegment st x).2.1 from by rw [h3]]
      exact refSegment_mono st x id sg h
  | str s => cases hc; exact h
  | num n => cases hc; exact h
  | bool b => cases hc; exact h
  | null => cases hc; exact h
  | undefined => cases hc; exact h
  | bigint n => cases hc; exact h
  | symReg d => cases hc

theorem serializeListA_mono (l : List JSVal) (st st1 : SerState)
    (segs ws : List String) (hc : serializeListA st l = .ok (segs, st1, ws))
    (id : Nat) (sg : String)
    (h : mget st.weakKeyToKeySegmentCache id = some sg) :
    mget st1.weakKeyToKeySegmentCache id = some sg := by
  induction l generalizing st segs ws with
  | nil =>
      rw [serializeListA] at hc
      cases hc
      exact h
  | cons v rest ih =>
      rw [serializeListA] at hc
      cases ha : serializeArgA st v with
      | error e => rw [ha] at hc; cases hc
      | ok r =>
          obtain ⟨seg0, stm, ws0⟩ := r
          rw [ha] at hc
          dsimp only at hc
          cases hl : serializeListA stm rest with
          | error e => rw [hl] at hc; cases hc
          | ok r2 =>
              obtain ⟨segs2, st2, ws2⟩ := r2
              rw [hl] at hc
              dsimp only at hc
              cases hc
              exact ih stm _ _ hl (serializeArgA_mono st stm v seg0 ws0 ha id sg h)

theorem refSegment_seg_mem_ws (st : SerState) (x : Nat) :
    (refSegment st x).1 ∈ (refSegment st x).2.2 := by
  unfold refSegment
  cases mget st.weakKeyToKeySegmentCache x <;> simp

theorem serializeListA_ref_mem (l : List JSVal) (st st1 : SerState)
    (segs ws : List String) (id : Nat)
    (hmem : JSVal.ref id ∈ l)
    (hc : serializeListA st l = .ok (segs, st1, ws)) :
    ∃ seg, mget st1.weakKeyToKeySegmentCache id = some seg ∧ seg ∈ ws := by
  induction l generalizing st segs ws with
  | nil => simp at hmem
  | cons v rest ih =>
      rw [serializeListA] at hc
      cases ha : serializeArgA st v with
      | error e => rw [ha] at hc; cases hc
      | ok r =>
          obtain ⟨seg0, stm, ws0⟩ := r
          rw [ha] at hc
          dsimp only at hc
          cases hl : serializeListA stm rest with
          | error e => rw [hl] at hc; cases hc
          | ok r2 =>
              obtain ⟨segs2, st2, ws2⟩ := r2
              rw [hl] at hc
              dsimp only at hc
              cases hc
              rcases List.mem_cons.mp hmem with h1 | h2
              · subst h1
                have h2 : (Except.ok (refSegment st id) :
                    Except Unit (String × SerState × List String)) = .ok (seg0, stm, ws0) := ha
                injection h2 with h1
                refine ⟨seg0, ?_, ?_⟩
                · have hm0 : mget stm.weakKeyToKeySegmentCache id = some seg0 := by
                    have := refSegment_mget st id
                    rw [h1] at this
                    exact this
                  exact serializeListA_mono rest stm _ _ _ hl id seg0 hm0
                · have := refSegment_seg_mem_ws st id
                  rw [h1] at this
                  exact List.mem_append_left _ this
              · obtain ⟨seg, hseg, hws⟩ := ih stm _ _ h2 hl
                exact ⟨seg, hseg, List.mem_append_right _ hws⟩

theorem pushKey_mem_getD (st : SerState) (key key' seg seg' : String)
    (h : key ∈ (mget st.weakKeySegmentToKeyCache seg).getD []) :
    key ∈ (mget (pushKey st key' seg').weakKeySegmentToKeyCache seg).getD [] := by
  unfold pushKey
  by_cases h0 : seg' = seg
  · subst h0
    rw [show mget (mset st.weakKeySegmentToKeyCache seg'
        ((mget st.weakKeySegmentToKeyCache seg').getD [] ++ [key'])) seg'
      = some ((mget st.weakKeySegmentToKeyCache seg').getD [] ++ [key'])
      from mget_mset_self _ _ _]
    simp only [Option.getD_some]
    exact List.mem_append_left _ h
  · rw [show mget (mset st.weakKeySegmentToKeyCache seg'
        ((mget st.weakKeySegmentToKeyCache seg').getD [] ++ [key'])) seg
      = mget st.weakKeySegmentToKeyCache seg
      from mget_mset_ne _ _ _ _ (fun hh => h0 hh.symm)]
    exact h

theorem foldl_pushKey_pres_mem (ws : List String) (st : SerState)
    (key key' seg : String)
    (h : key ∈ (mget st.weakKeySegmentToKeyCache seg).getD []) :
    key ∈ (mget ((ws.foldl (fun s w => pushKey s key' w) st)).weakKeySegmentToKeyCache
      seg).getD [] := by
  induction ws generalizing st with
  | nil => exact h
  | cons w ws ih => exact ih _ (pushKey_mem_getD st key key' seg w h)

theorem foldl_pushKey_mem (ws : List String) (st : SerState) (key : String) :
    ∀ seg ∈ ws,
      key ∈ (mget ((ws.foldl (fun s w => pushKey s key w) st)).weakKeySegmentToKeyCache
        seg).getD [] := by
  induction ws generalizing st with
  | nil => simp
  | cons w ws ih =>
      intro seg hseg
      rcases List.mem_cons.mp hseg with h1 | h2
      · subst h1
        have hbase : key ∈ (mget (pushKey st key seg).weakKeySegmentToKeyCache
            seg).getD [] := by
          unfold pushKey
          rw [show mget (mset st.weakKeySegmentToKeyCache seg
              ((mget st.weakKeySegmentToKeyCache seg).getD [] ++ [key])) seg
            = some ((mget st.weakKeySegmentToKeyCache seg).getD [] ++ [key])
            from mget_mset_self _ _ _]
          simp
        exact foldl_pushKey_pres_mem ws (pushKey st key seg) key key seg hbase
      · exact ih (pushKey st key w) seg h2


/-- C3 (amended): when the cleanup callback for a reclaimed reference value
runs, it deletes from the backing cache every composite key recorded in the
segment-to-keys index for that value's segment — and every composite key
that incorporated the segment is indeed recorded there by `getKey` (part 1).
The `memoize.ts` callback additionally removes the segment's index entry
(part 2), while the single-file `part_003` callback leaves the serializer
state — the index entry included — unchanged (part 3). -/
theorem cleanup_deletes_derived_keys_index_divergence {V : Type} :
    (∀ (st : SerState) (thisv : JSVal) (args : List JSVal) (key : String)
        (st' : SerState) (id : Nat),
      getKeyA st thisv args = .ok (key, st') → JSVal.ref id ∈ thisv :: args →
      ∃ seg, mget st'.weakKeyToKeySegmentCache id = some seg ∧
        key ∈ (mget st'.weakKeySegmentToKeyCache seg).getD []) ∧
    (∀ (cache : List (String × V)) (st : SerState) (seg : String),
      (cache.map Prod.fst).Nodup →
      (st.weakKeySegmentToKeyCache.map Prod.fst).Nodup →
      (∀ k ∈ (mget st.weakKeySegmentToKeyCache seg).getD [],
        mget (cleanupA cache st seg).1 k = none) ∧
      mget (cleanupA cache st seg).2.weakKeySegmentToKeyCache seg = none) ∧
    (∀ (cache : List (String × V)) (st : SerStateP) (seg : String),
      (cache.map Prod.fst).Nodup →
      (∀ k ∈ (mget st.keySegmentToKeyCache seg).getD [],
        mget (cleanupP cache st seg).1 k = none) ∧
      (cleanupP cache st seg).2 = st) := by
  refine ⟨?_, ?_, ?_⟩
  · intro st thisv args key st' id hc hmem
    rw [getKeyA] at hc
    cases hser : serializeListA st (thisv :: args) with
    | error e => rw [hser] at hc; cases hc
    | ok r =>
        obtain ⟨segs, st1, ws⟩ := r
        rw [hser] at hc
        dsimp only at hc
        cases hc
        obtain ⟨seg, hseg, hws⟩ := serializeListA_ref_mem _ st st1 segs ws id hmem hser
        refine ⟨seg, ?_, ?_⟩
        · rw [(foldl_pushKey_weakMap _ ws st1).1]
          exact hseg
        · exact foldl_pushKey_mem ws st1 _ seg hws
  · intro cache st seg hcache hidx
    exact ⟨foldl_mdel_all _ cache hcache, mget_mdel_self_of_nodup _ seg hidx⟩
  · intro cache st seg hcache
    exact ⟨foldl_mdel_all _ cache hcache, rfl⟩

/-- Counterexample to C3 as stated: in the single-file variant the cleanup
callback deletes the derived cache entries but does not remove the
segment's entry from the segment-to-keys index — after running it for the
segment of a reclaimed reference, the serializer state is unchanged and
still maps that segment to the derived composite key. -/
theorem cleanupP_keeps_index_entry :
    (cleanupP [("undefined," ++ mkSegP 0, (42 : Nat))]
        (getKeyP SerStateP.init .undefined [.ref 0]).2 (mkSegP 0)).1 = [] ∧
    (cleanupP [("undefined," ++ mkSegP 0, (42 : Nat))]
        (getKeyP SerStateP.init .undefined [.ref 0]).2 (mkSegP 0)).2 =
      (getKeyP SerStateP.init .undefined [.ref 0]).2 ∧
    mget ((cleanupP [("undefined," ++ mkSegP 0, (42 : Nat))]
        (getKeyP SerStateP.init .undefined [.ref 0]).2 (mkSegP 0)).2).keySegmentToKeyCache
      (mkSegP 0) = some ["undefined," ++ mkSegP 0] := by
  decide

/-- Witness for C3: the registration of a derived key under its reference
segment, and the two callbacks run on concrete states. -/
theorem cleanup_deletes_derived_keys_index_divergence_witness :
    (∃ seg, mget (⟨[(0, mkSeg 0)],
          [(mkSeg 0, ["undefined," ++ mkSeg 0, "undefined," ++ mkSeg 0])], 1⟩ :
            SerState).weakKeyToKeySegmentCache 0 = some seg ∧
        "undefined," ++ mkSeg 0 ∈
          (mget (⟨[(0, mkSeg 0)],
            [(mkSeg 0, ["undefined," ++ mkSeg 0, "undefined," ++ mkSeg 0])], 1⟩ :
              SerState).weakKeySegmentToKeyCache seg).getD []) ∧
    ((∀ k ∈ (mget ([(mkSeg 0, ["k1", "k2"])] :
          List (String × List String)) (mkSeg 0)).getD [],
        mget (cleanupA [("k1", (1 : Nat)), ("k2", 2), ("k3", 3)]
          ⟨[], [(mkSeg 0, ["k1", "k2"])], 1⟩ (mkSeg 0)).1 k = none) ∧
      mget (cleanupA [("k1", (1 : Nat)), ("k2", 2), ("k3", 3)]
          ⟨[], [(mkSeg 0, ["k1", "k2"])], 1⟩ (mkSeg 0)).2.weakKeySegmentToKeyCache
        (mkSeg 0) = none) ∧
    ((∀ k ∈ (mget ((getKeyP SerStateP.init .undefined [.ref 0]).2).keySegmentToKeyCache
          (mkSegP 0)).getD [],
        mget (cleanupP [("undefined," ++ mkSegP 0, (7 : Nat))]
          (getKeyP SerStateP.init .undefined [.ref 0]).2 (mkSegP 0)).1 k = none) ∧
      (cleanupP [("undefined," ++ mkSegP 0, (7 : Nat))]
          (getKeyP SerStateP.init .undefined [.ref 0]).2 (mkSegP 0)).2 =
        (getKeyP SerStateP.init .undefined [.ref 0]).2) :=
  ⟨(@cleanup_deletes_derived_keys_index_divergence Nat).1 SerState.init .undefined [.ref 0]
      ("undefined," ++ mkSeg 0)
      ⟨[(0, mkSeg 0)], [(mkSeg 0, ["undefined," ++ mkSeg 0, "undefined," ++ mkSeg 0])], 1⟩
      0 rfl (by decide),
   (@cleanup_deletes_derived_keys_index_divergence Nat).2.1
      [("k1", 1), ("k2", 2), ("k3", 3)] ⟨[], [(mkSeg 0, ["k1", "k2"])], 1⟩ (mkSeg 0)
      (by decide) (by decide),
   (@cleanup_deletes_derived_keys_index_divergence Nat).2.2
      [("undefined," ++ mkSegP 0, 7)] (getKeyP SerStateP.init .undefined [.ref 0]).2
      (mkSegP 0) (by decide)⟩


/-- Counterexample to C4 as stated: the `memoize.ts` serializer does not
fall back to a strongly-held identity mapping for a registered symbol — it
returns the description-derived literal `Symbol.for("a")`, leaves the whole
serializer state unchanged (no mapping of any kind is recorded, and the
token counter is not consumed), and the returned segment is not the
identity token the counter would mint. -/
theorem serializeArgB_symbol_literal_not_identity_map :
    serializeArgB SerState.init (.symReg "a") =
      ("Symbol.for(" ++ jsonStringify "a" ++ ")", SerState.init, []) ∧
    "Symbol.for(" ++ jsonStringify "a" ++ ")" ≠ mkSeg 0 := by
  decide

/-- C4 (amended): the single-file (`part_003`) serializer handles a value
that cannot be weakly tracked by falling back to the strongly-held identity
map: it returns a key segment, records the value in
`strongKeySegmentCache`, and a repeated call reuses that segment with no
state change; its key derivation is total (serialization never fails for
any representable argument).  The `memoize.ts` serializer instead renders a
registered symbol as the literal `` `Symbol.for(${JSON.stringify(arg.description)})` ``
without touching the serializer state — also never failing for symbols. -/
theorem serializer_untrackable_fallback_divergence :
    (∀ (st : SerStateP) (d : String), ∃ seg st',
      serializeArgP st (.symReg d) = (seg, st') ∧
      mget st'.strongKeySegmentCache d = some seg ∧
      serializeArgP st' (.symReg d) = (seg, st')) ∧
    (∀ (st : SerStateP) (thisv : JSVal) (args : List JSVal),
      ∃ key st', getKeyP st thisv args = (key, st')) ∧
    (∀ (st : SerState) (d : String),
      serializeArgB st (.symReg d) =
        ("Symbol.for(" ++ jsonStringify d ++ ")", st, [])) := by
  refine ⟨?_, fun st thisv args => ⟨_, _, rfl⟩, fun st d => rfl⟩
  intro st d
  cases hm : mget st.strongKeySegmentCache d with
  | some seg =>
      refine ⟨seg, st, ?_, hm, ?_⟩ <;> simp [serializeArgP, hm]
  | none =>
      refine ⟨mkSegP st.i,
        { st with
            strongKeySegmentCache := mset st.strongKeySegmentCache d (mkSegP st.i),
            i := st.i + 1 }, ?_, ?_, ?_⟩
      · simp [serializeArgP, hm]
      · exact mget_mset_self _ _ _
      · simp [serializeArgP, mget_mset_self]


/-! ### Replaying the second-document serializer

Serializing the same `(fn, ...optionVals)` tuple a second time finds every
reference already in the weak map, so it produces the same key and leaves
the state unchanged. -/

theorem serializeArgB_mono (st : SerState) (v : JSVal) (id : Nat) (sg : String)
    (h : mget st.weakKeyToKeySegmentCache id = some sg) :
    mget (serializeArgB st v).2.1.weakKeyToKeySegmentCache id = some sg := by
  cases v with
  | ref x => exact refSegment_mono st x id sg h
  | str s => exact h
  | num n => exact h
  | bool b => exact h
  | null => exact h
  | undefined => exact h
  | bigint n => exact h
  | symReg d => exact h

theorem serializeListB_mono (l : List JSVal) (st : SerState) (id : Nat) (sg : String)
    (h : mget st.weakKeyToKeySegmentCache id = some sg) :
    mget (serializeListB st l).2.1.weakKeyToKeySegmentCache id = some sg := by
  induction l generalizing st with
  | nil => exact h
  | cons v rest ih =>
      show mget (serializeListB st (v :: rest)).2.1.weakKeyToKeySegmentCache id = some sg
      rcases ha : serializeArgB st v with ⟨seg0, stm, ws0⟩
      rcases hl : serializeListB stm rest with ⟨segs2, st2, ws2⟩
      have hm : mget stm.weakKeyToKeySegmentCache id = some sg := by
        have := serializeArgB_mono st v id sg h
        rw [ha] at this
        exact this
      have := ih stm hm
      rw [hl] at this
      simp only [serializeListB, ha, hl]
      exact this

theorem serializeArgB_replay (st st2 : SerState) (v : JSVal)
    (hmono : ∀ id sg, mget (serializeArgB st v).2.1.weakKeyToKeySegmentCache id = some sg →
      mget st2.weakKeyToKeySegmentCache id = some sg) :
    ∃ ws2, serializeArgB st2 v = ((serializeArgB st v).1, st2, ws2) := by
  cases v with
  | ref x =>
      have h1 : mget (serializeArgB st (.ref x)).2.1.weakKeyToKeySegmentCache x =
          some (serializeArgB st (.ref x)).1 := refSegment_mget st x
      have h2 := hmono x _ h1
      exact ⟨[(serializeArgB st (.ref x)).1],
        refSegment_hit st2 x ((serializeArgB st (.ref x)).1) h2⟩
  | str s => exact ⟨[], rfl⟩
  | num n => exact ⟨[], rfl⟩
  | bool b => exact ⟨[], rfl⟩
  | null => exact ⟨[], rfl⟩
  | undefined => exact ⟨[], rfl⟩
  | bigint n => exact ⟨[], rfl⟩
  | symReg d => exact ⟨[], rfl⟩

theorem serializeListB_replay (l : List JSVal) (st st2 : SerState)
    (hmono : ∀ id sg, mget (serializeListB st l).2.1.weakKeyToKeySegmentCache id = some sg →
      mget st2.weakKeyToKeySegmentCache id = some sg) :
    ∃ ws2, serializeListB st2 l = ((serializeListB st l).1, st2, ws2) := by
  induction l generalizing st with
  | nil => exact ⟨[], rfl⟩
  | cons v rest ih =>
      rcases ha : serializeArgB st v with ⟨seg0, stm, ws0⟩
      rcases hl : serializeListB stm rest with ⟨segs2, stf, ws2⟩
      have hall : (serializeListB st (v :: rest)).2.1 = stf := by
        simp only [serializeListB, ha, hl]
      have hmono1 : ∀ id sg,
          mget (serializeArgB st v).2.1.weakKeyToKeySegmentCache id = some sg →
          mget st2.weakKeyToKeySegmentCache id = some sg := by
        intro id sg hm
        rw [ha] at hm
        have := serializeListB_mono rest stm id sg hm
        rw [hl] at this
        refine hmono id sg ?_
        rw [hall]
        exact this
      obtain ⟨wsa, hra⟩ := serializeArgB_replay st st2 v hmono1
      rw [ha] at hra
      have hmono2 : ∀ id sg,
          mget (serializeListB stm rest).2.1.weakKeyToKeySegmentCache id = some sg →
          mget st2.weakKeyToKeySegmentCache id = some sg := by
        intro id sg hm
        refine hmono id sg ?_
        rw [hall]
        rw [hl] at hm
        exact hm
      obtain ⟨wsl, hrl⟩ := ih stm hmono2
      rw [hl] at hrl
      refine ⟨wsa ++ wsl, ?_⟩
      simp only [serializeListB, hra, hrl, ha, hl]

theorem getKeyB_replay_key (st : SerState) (thisv : JSVal) (args : List JSVal) :
    (getKeyB (getKeyB st thisv args).2 thisv args).1 = (getKeyB st thisv args).1 := by
  rcases hl : serializeListB st (thisv :: args) with ⟨segs, st1, ws⟩
  have hres1 : (getKeyB st thisv args).1 = String.intercalate "," segs := by
    simp only [getKeyB, hl]
  have hres2 : (getKeyB st thisv args).2 =
      ws.foldl (fun s seg => pushKey s (String.intercalate "," segs) seg) st1 := by
    simp only [getKeyB, hl]
  have hmapeq := foldl_pushKey_weakMap (String.intercalate "," segs) ws st1
  have hmono : ∀ id sg,
      mget (serializeListB st (thisv :: args)).2.1.weakKeyToKeySegmentCache id = some sg →
      mget ((getKeyB st thisv args).2).weakKeyToKeySegmentCache id = some sg := by
    intro id sg hm
    rw [hl] at hm
    rw [hres2, hmapeq.1]
    exact hm
  obtain ⟨ws2, hr⟩ := serializeListB_replay (thisv :: args) st _ hmono
  rw [hl] at hr
  dsimp only at hr
  rw [hres1]
  generalize hg : (getKeyB st thisv args).2 = g2 at hr
  simp only [getKeyB, hr]


/-! ### The memoized `memoize`: reference-equal wrapped functions -/

theorem LruCache.mget_setMostRecentlyUsed_self {ν : Type} (c : LruCache κ ν)
    (k : κ) (v : ν) :
    mget (c.setMostRecentlyUsed k v).entries k = some v :=
  mget_mset_self _ _ _

theorem LruCache.mget_set_self {ν : Type} (c : LruCache κ ν) (k : κ) (v : ν)
    (hmax : 1 ≤ c.maxSize) (hnone : mget c.entries k = none) :
    mget (c.set k v).entries k = some v := by
  have hmru : (c.setMostRecentlyUsed k v).entries = c.entries ++ [(k, v)] := by
    simp only [LruCache.setMostRecentlyUsed]
    rw [mdel_of_mget_none _ _ hnone, mset_of_mget_none _ _ _ hnone]
  show mget ((c.setMostRecentlyUsed k v).pruneToMaxSize).entries k = some v
  rw [LruCache.pruneToMaxSize_entries, LruCache.maxSize_setMostRecentlyUsed, hmru]
  split
  · next hgt =>
      cases he : c.entries with
      | nil =>
          rw [he] at hgt
          simp at hgt
          omega
      | cons p e' =>
          obtain ⟨k0, v0⟩ := p
          rw [he] at hnone
          simp only [List.cons_append, List.tail_cons]
          by_cases h0 : k0 = k
          · simp [mget, h0] at hnone
          · simp only [mget, if_neg h0] at hnone
            rw [mget_append_of_mget_none _ _ _ hnone]
            simp [mget]
  · next hgt =>
      rw [mget_append_of_mget_none _ _ _ hnone]
      simp [mget]

/-- C10: through the exported memoized `memoize` (capacity-100 `LruCache`,
keys derived from the function reference plus its option values sorted by
option name), two consecutive calls with the same function reference and
option entries that sort to the same list return the reference-equal
wrapped function, as long as the cache capacity is at least one (the entry
cannot have been evicted between consecutive calls). -/
theorem memoize_memoized_identity (s : MemoMemoState) (fnRef : JSVal)
    (opts opts2 : List (String × JSVal))
    (hmax : 1 ≤ s.lru.maxSize)
    (hsort : List.insertionSort (fun p q : String × JSVal => p.1 ≤ q.1) opts2 =
      List.insertionSort (fun p q : String × JSVal => p.1 ≤ q.1) opts) :
    (memoMemoCall fnRef opts2 (memoMemoCall fnRef opts s).2).1 =
      (memoMemoCall fnRef opts s).1 := by
  rcases hk1 : memoizeGetKey s.ser fnRef opts with ⟨key, ser1⟩
  have hk1' : getKeyB s.ser .undefined
      (fnRef :: (List.insertionSort (fun p q : String × JSVal => p.1 ≤ q.1) opts).map
        Prod.snd) = (key, ser1) := hk1
  have hvals : memoizeGetKey ser1 fnRef opts2 = getKeyB ser1 .undefined
      (fnRef :: (List.insertionSort (fun p q : String × JSVal => p.1 ≤ q.1) opts).map
        Prod.snd) := by
    simp only [memoizeGetKey, hsort]
  have hrk := getKeyB_replay_key s.ser .undefined
    (fnRef :: (List.insertionSort (fun p q : String × JSVal => p.1 ≤ q.1) opts).map
      Prod.snd)
  rw [hk1'] at hrk
  dsimp only at hrk
  rcases hk2 : memoizeGetKey ser1 fnRef opts2 with ⟨key2, ser2⟩
  have hkeq : key2 = key := by
    rw [hvals] at hk2
    have := congrArg Prod.fst hk2
    dsimp only at this
    rw [← this]
    exact hrk
  subst hkeq
  cases hmget : mget s.lru.entries key2 with
  | none =>
      have hc1 : memoMemoCall fnRef opts s =
          (s.nextWrapped,
           ⟨s.lru.set key2 s.nextWrapped, ser1, s.nextWrapped + 1⟩) := by
        simp [memoMemoCall, hk1, LruCache.has, hmget]
      have hstore : mget (s.lru.set key2 s.nextWrapped).entries key2 =
          some s.nextWrapped :=
        LruCache.mget_set_self s.lru key2 s.nextWrapped hmax hmget
      rw [hc1]
      simp [memoMemoCall, hk2, LruCache.has, LruCache.get, hstore,
        LruCache.mget_setMostRecentlyUsed_self]
  | some v =>
      have hc1 : memoMemoCall fnRef opts s =
          (v, { s with
                  lru := ((s.lru.setMostRecentlyUsed key2 v).setMostRecentlyUsed key2 v),
                  ser := ser1 }) := by
        simp [memoMemoCall, hk1, LruCache.has, LruCache.get, hmget,
          LruCache.mget_setMostRecentlyUsed_self]
      rw [hc1]
      simp [memoMemoCall, hk2, LruCache.has, LruCache.get,
        LruCache.mget_setMostRecentlyUsed_self]

/-- Witness for C10: two calls with the same function reference and the
same single option, given in the same order, on the initial module state. -/
theorem memoize_memoized_identity_witness :
    (memoMemoCall (.ref 0) [("truncateArgs", .bool Bool.true)]
        (memoMemoCall (.ref 0) [("truncateArgs", .bool Bool.true)]
          MemoMemoState.init).2).1 =
      (memoMemoCall (.ref 0) [("truncateArgs", .bool Bool.true)]
        MemoMemoState.init).1 :=
  memoize_memoized_identity MemoMemoState.init (.ref 0)
    [("truncateArgs", .bool Bool.true)] [("truncateArgs", .bool Bool.true)]
    (by decide) rfl

end Memoize
